import Mathlib

/-!
Shallow embedding of the package-metadata cache and prefetch pipeline of the
PatchPulse VS Code extension.

Sources embedded:
- src/src/services/packageCache.ts (class PackageCache)
- src/src/services/packagePreFetcher.ts (class PackagePreFetcher)
- src/unnamed/part_001 (class PatchPulseProvider: per-package fetch with
  failure tracking and backoff)

JS Map objects are modelled as insertion-ordered association lists with
unique keys; JS Set objects as insertion-ordered duplicate-free lists.
Date.now() is an explicit natural-number parameter.  JS truthiness of a
string (the empty string is falsy) is modelled explicitly where the code
relies on it.
-/

namespace PatchPulse

/-- Insertion-ordered association map, as a JS Map over string keys. -/
abbrev SMap (α : Type) := List (String × α)

/-- Map.get: first entry with the given key. -/
def mapFind {α : Type} : SMap α → String → Option α
  | [], _ => none
  | e :: rest, p => if e.1 = p then some e.2 else mapFind rest p

/-- Map.delete: remove the (single) entry with the given key. -/
def mapErase {α : Type} : SMap α → String → SMap α
  | [], _ => []
  | e :: rest, p => if e.1 = p then rest else e :: mapErase rest p

/-- In-place update of the entry with the given key (position preserved). -/
def mapReplace {α : Type} : SMap α → String → α → SMap α
  | [], _, _ => []
  | e :: rest, p, v => if e.1 = p then (p, v) :: rest else e :: mapReplace rest p v

/-- Map.set: replace in place when the key exists, else append. -/
def mapSet {α : Type} (m : SMap α) (p : String) (v : α) : SMap α :=
  match mapFind m p with
  | some _ => mapReplace m p v
  | none => m ++ [(p, v)]

/-- The keys of a map, in order. -/
def mapKeys {α : Type} (m : SMap α) : List String := m.map Prod.fst

/-!
## Package Cache (src/src/services/packageCache.ts, class PackageCache)
-/

/-- CacheEntry of packageCache.ts: latest version, timestamp of the last
check, and the set of files using this package (insertion-ordered,
duplicate-free list standing for the JS Set). -/
structure CacheEntry where
  version : String
  timestamp : Nat
  files : List String
  deriving Repr, DecidableEq

/-- The private Map of class PackageCache. -/
abbrev Cache := SMap CacheEntry

/-- CACHE_TTL = 30 * 60 * 1000 (30 minutes in milliseconds). -/
def CACHE_TTL : Nat := 30 * 60 * 1000

/-- Set.add: append if not already present (JS Sets are insertion-ordered). -/
def setAdd (s : List String) (f : String) : List String :=
  if f ∈ s then s else s ++ [f]

/-- PackageCache.getCachedPackageLatestVersion: returns the version when the
entry exists and is not expired; an expired entry is deleted on lookup.
Returns the result together with the possibly-mutated cache. -/
def getCachedPackageLatestVersion (c : Cache) (packageName : String) (now : Nat) :
    Option String × Cache :=
  match mapFind c packageName with
  | none => (none, c)
  | some entry =>
    if now - entry.timestamp > CACHE_TTL then
      (none, mapErase c packageName)
    else
      (some entry.version, c)

/-- PackageCache.setCachedVersion.  The JS guard `if (filePath)` is truthiness:
an empty-string filePath is not added to the file set. -/
def setCachedVersion (c : Cache) (packageName version : String)
    (filePath : Option String) (now : Nat) : Cache :=
  match mapFind c packageName with
  | some existing =>
    mapReplace c packageName
      { version := version
        timestamp := now
        files :=
          match filePath with
          | some f => if f ≠ "" then setAdd existing.files f else existing.files
          | none => existing.files }
  | none =>
    c ++ [(packageName,
      { version := version
        timestamp := now
        files :=
          match filePath with
          | some f => if f ≠ "" then [f] else []
          | none => [] })]

/-- PackageCache.clearPackage. -/
def clearPackage (c : Cache) (packageName : String) : Cache :=
  mapErase c packageName

/-- PackageCache.clearCacheForFile: delete the file from every entry (the
Set.delete), and remove every entry whose file set became empty (the
packagesToRemove pass), keeping the order of the remaining entries. -/
def clearCacheForFile : Cache → String → Cache
  | [], _ => []
  | pr :: rest, filePath =>
    let entry := { pr.2 with files := pr.2.files.filter (fun f => f ≠ filePath) }
    if entry.files = [] then clearCacheForFile rest filePath
    else (pr.1, entry) :: clearCacheForFile rest filePath

/-- PackageCache.clearExpiredEntries: remove every expired entry. -/
def clearExpiredEntries (c : Cache) (now : Nat) : Cache :=
  c.filter (fun e => ¬ (now - e.2.timestamp > CACHE_TTL))

/-- PackageCache.markForRefresh: for each listed name present in the cache,
set its timestamp to 0 to force expiration; absent names are ignored. -/
def markForRefresh (c : Cache) (packageNames : List String) : Cache :=
  packageNames.foldl
    (fun acc p =>
      match mapFind acc p with
      | some entry => mapReplace acc p { entry with timestamp := 0 }
      | none => acc)
    c

/-- PackageCache.getStats: distinct package count and distinct file count. -/
def getStats (c : Cache) : Nat × Nat :=
  (c.length, ((c.map (fun e => e.2.files)).flatten).dedup.length)

/-!
## Prefetch queue (src/src/services/packagePreFetcher.ts, class PackagePreFetcher)
-/

/-- A queue item: { packageName, filePath? }. -/
structure QItem where
  packageName : String
  filePath : Option String
  deriving Repr, DecidableEq

/-- BATCH_SIZE = 5. -/
def BATCH_SIZE : Nat := 5

/-- The mutable state of the prefetcher together with the package cache it
uses: queue, inProgress set, cache. -/
structure FetchState where
  queue : List QItem
  inProgress : List String
  cache : Cache
  deriving Repr, DecidableEq

/-- JS truthiness of the value returned by getCachedPackageLatestVersion:
null and the empty string are falsy. -/
def truthy : Option String → Bool
  | none => false
  | some v => v ≠ ""

/-- The filter of PackagePreFetcher.addPackages, run over the input names
left to right.  Each name is kept when the cache lookup is falsy (the lookup
itself may evict an expired entry, so the cache is threaded through), the
name is not in progress, and no item of the queue as it was at call time
carries the name.  The queue and inProgress set are the ones from before the
push: the filter runs in full before any item is appended. -/
def filterNewPackages (cache : Cache) (inProgress : List String) (queue : List QItem)
    (names : List String) (now : Nat) : List String × Cache :=
  match names with
  | [] => ([], cache)
  | n :: rest =>
    let r := getCachedPackageLatestVersion cache n now
    let keep := ¬ truthy r.1 ∧ n ∉ inProgress ∧ ∀ item ∈ queue, item.packageName ≠ n
    let tail := filterNewPackages r.2 inProgress queue rest now
    (if keep then n :: tail.1 else tail.1, tail.2)

/-- PackagePreFetcher.addPackages: filter the names against the cache, the
in-progress set and the current queue, then append the survivors as queue
items tagged with filePath. -/
def addPackages (st : FetchState) (packageNames : List String)
    (filePath : Option String) (now : Nat) : FetchState :=
  let fr := filterNewPackages st.cache st.inProgress st.queue packageNames now
  { st with
    cache := fr.2
    queue := st.queue ++ fr.1.map (fun n => { packageName := n, filePath := filePath }) }

/-- One iteration of the processQueue loop up to the point where the batch
has been spliced off the queue and its names marked in progress. -/
def takeBatch (st : FetchState) : FetchState × List QItem :=
  let batch := st.queue.take BATCH_SIZE
  ({ st with
      queue := st.queue.drop BATCH_SIZE
      inProgress := batch.foldl (fun s i => setAdd s i.packageName) st.inProgress },
   batch)

/-- Observable outcome of one getPackageInfo call inside processQueue. -/
inductive FetchOutcome where
  /-- getPackageInfo resolved; the argument is packageInfo dist-tags latest,
  which may be missing. -/
  | resolved (latest : Option String)
  /-- getPackageInfo (or the cache update) threw. -/
  | threw
  deriving Repr, DecidableEq

/-- The body of one batch item of processQueue: on a resolved fetch whose
latest version is truthy, store it in the cache; otherwise leave the cache
alone; in every case (finally) remove the package from the in-progress set. -/
def handleFetchResult (st : FetchState) (item : QItem) (out : FetchOutcome)
    (now : Nat) : FetchState :=
  let withCache :=
    match out with
    | .resolved (some v) =>
      if v ≠ "" then { st with cache := setCachedVersion st.cache item.packageName v item.filePath now }
      else st
    | .resolved none => st
    | .threw => st
  { withCache with inProgress := withCache.inProgress.filter (fun n => n ≠ item.packageName) }

/-- Fuel-indexed worker for the drain loop; the fuel is an upper bound on the
number of iterations (each iteration shortens the queue). -/
def drainBatchesGo (fuel : Nat) (queue : List QItem) : List (List QItem × Bool) :=
  match fuel with
  | 0 => []
  | fuel + 1 =>
    if queue = [] then []
    else
      (queue.take BATCH_SIZE, queue.drop BATCH_SIZE ≠ []) ::
        drainBatchesGo fuel (queue.drop BATCH_SIZE)

/-- The batch structure of the processQueue drain loop over a queue snapshot:
each step splices up to BATCH_SIZE items off the front, and the Boolean
records whether the inter-batch delay is awaited (the queue is still
non-empty after the splice). -/
def drainBatches (queue : List QItem) : List (List QItem × Bool) :=
  drainBatchesGo queue.length queue

/-- PackagePreFetcher.refreshPackages: mark the names for refresh in the
cache, then re-enqueue them through addPackages (with no filePath). -/
def refreshPackages (st : FetchState) (packages : List String) (now : Nat) : FetchState :=
  addPackages { st with cache := markForRefresh st.cache packages } packages none now

/-!
## Provider with failure tracking (src/unnamed/part_001, class PatchPulseProvider)
-/

/-- An entry of the provider-level package cache: { version, timestamp }. -/
structure PvEntry where
  version : String
  timestamp : Nat
  deriving Repr, DecidableEq

/-- A failedPackages entry: { attempts, lastAttempt }. -/
structure FailureInfo where
  attempts : Nat
  lastAttempt : Nat
  deriving Repr, DecidableEq

/-- CACHE_DURATION = 3600000 (1 hour in milliseconds). -/
def CACHE_DURATION : Nat := 3600000

/-- MAX_ATTEMPTS = 3. -/
def MAX_ATTEMPTS : Nat := 3

/-- RETRY_DELAY = 30000 (30 seconds). -/
def RETRY_DELAY : Nat := 30000

/-- The mutable maps of PatchPulseProvider: packageCache and failedPackages. -/
structure ProviderState where
  packageCache : SMap PvEntry
  failedPackages : SMap FailureInfo
  deriving Repr, DecidableEq

/-- The per-package status field of PackageInfo. -/
inductive PkgStatus where
  | loading
  | success
  | error
  | notFound
  | timeout
  deriving Repr, DecidableEq

/-- Classified outcome of the network part of getLatestVersionWithTimeout,
when a request is actually issued (cache miss).  Mirrors the reject reasons
and the 200 path of the HTTPS callback. -/
inductive NetOutcome where
  /-- status 200, body parsed; the argument is dist-tags latest (possibly
  missing). -/
  | ok (latest : Option String)
  /-- status 404 (reject NOT_FOUND). -/
  | notFound
  /-- status 429 (reject RATE_LIMITED). -/
  | rateLimited
  /-- any other non-200 status (reject HTTP_status). -/
  | httpError (status : Nat)
  /-- status 200 but the body is not valid JSON (reject PARSE_ERROR). -/
  | parseError
  /-- the outer watchdog timer fired (reject TIMEOUT). -/
  | timedOut
  /-- the socket-level timeout fired (reject REQUEST_TIMEOUT). -/
  | requestTimeout
  /-- response stream error (reject RESPONSE_ERROR). -/
  | responseError
  /-- request-level error (reject NETWORK_ERROR). -/
  | networkError
  deriving Repr, DecidableEq

/-- The error message carried by each rejection, as built by
getLatestVersionWithTimeout.  ok (some v) with falsy v rejects with
NO_LATEST_VERSION; ok none likewise. -/
def errMessage : NetOutcome → String
  | .ok _ => "NO_LATEST_VERSION"
  | .notFound => "NOT_FOUND"
  | .rateLimited => "RATE_LIMITED"
  | .httpError s => "HTTP_" ++ toString s
  | .parseError => "PARSE_ERROR"
  | .timedOut => "TIMEOUT"
  | .requestTimeout => "REQUEST_TIMEOUT"
  | .responseError => "RESPONSE_ERROR"
  | .networkError => "NETWORK_ERROR"

/-- errorMessage.includes checks of handlePackageFailure, evaluated on the
finite message set above: NOT_FOUND only for the 404 rejection. -/
def msgHasNotFound (o : NetOutcome) : Bool :=
  match o with
  | .notFound => true
  | _ => false

/-- errorMessage.includes("TIMEOUT") or includes("REQUEST_TIMEOUT"): matches
both timeout rejections (TIMEOUT is a substring of REQUEST_TIMEOUT). -/
def msgHasTimeout (o : NetOutcome) : Bool :=
  match o with
  | .timedOut => true
  | .requestTimeout => true
  | _ => false

/-- errorMessage.includes("RATE_LIMITED"). -/
def msgHasRateLimited (o : NetOutcome) : Bool :=
  match o with
  | .rateLimited => true
  | _ => false

/-- Result of one per-package step of fetchPackageVersions: the new provider
state, the number of network requests issued (0 or 1), and the PackageInfo
status and latestVersion fields after the step. -/
structure ReqResult where
  state : ProviderState
  netCalls : Nat
  status : PkgStatus
  latestVersion : Option String
  deriving Repr, DecidableEq

/-- PatchPulseProvider.handlePackageFailure: a NOT_FOUND rejection is
terminal and returns before the failure-tracking block; every other
rejection increments attempts and stamps lastAttempt = now, then classifies
the status. -/
def handlePackageFailure (st : ProviderState) (p : String) (o : NetOutcome)
    (now : Nat) : ProviderState × PkgStatus × Option String :=
  if msgHasNotFound o then
    (st, .notFound, some "not-found")
  else
    let prev := (mapFind st.failedPackages p).getD { attempts := 0, lastAttempt := 0 }
    let info : FailureInfo := { attempts := prev.attempts + 1, lastAttempt := now }
    let st := { st with failedPackages := mapSet st.failedPackages p info }
    if msgHasTimeout o then
      (st, .timeout, some "timeout")
    else if msgHasRateLimited o then
      (st, .error, some "rate-limited")
    else
      (st, .error, some "error")

/-- Whether the failedPackages guard at the top of fetchPackageVersions
suppresses the request: an entry exists with attempts at or above
MAX_ATTEMPTS and the backoff window has not yet elapsed. -/
def suppressed (st : ProviderState) (p : String) (now : Nat) : Bool :=
  match mapFind st.failedPackages p with
  | some fi => fi.attempts ≥ MAX_ATTEMPTS ∧ now - fi.lastAttempt < RETRY_DELAY
  | none => false

/-- Whether the provider cache returns a hit inside
getLatestVersionWithTimeout: an entry exists and now - timestamp is
strictly below CACHE_DURATION (no eviction on miss here). -/
def pvCacheFresh (st : ProviderState) (p : String) (now : Nat) : Bool :=
  match mapFind st.packageCache p with
  | some e => now - e.timestamp < CACHE_DURATION
  | none => false

/-- The network path of getLatestVersionWithTimeout plus the surrounding
try/catch of fetchPackageVersions: one request is issued; a 200 response
with a truthy dist-tags latest stores the version in the provider cache,
resolves, and the success path clears the tracker entry; every rejection
(including a falsy or missing latest) goes through handlePackageFailure. -/
def fetchOnePackageNet (st : ProviderState) (p : String) (now : Nat)
    (net : NetOutcome) : ReqResult :=
  match net with
  | .ok (some v) =>
    if v ≠ "" then
      { state :=
          { packageCache := mapSet st.packageCache p { version := v, timestamp := now }
            failedPackages := mapErase st.failedPackages p }
        netCalls := 1
        status := .success
        latestVersion := some v }
    else
      let r := handlePackageFailure st p (.ok (some v)) now
      { state := r.1, netCalls := 1, status := r.2.1, latestVersion := r.2.2 }
  | .ok none =>
    let r := handlePackageFailure st p (.ok none) now
    { state := r.1, netCalls := 1, status := r.2.1, latestVersion := r.2.2 }
  | o =>
    let r := handlePackageFailure st p o now
    { state := r.1, netCalls := 1, status := r.2.1, latestVersion := r.2.2 }

/-- One per-package step of PatchPulseProvider.fetchPackageVersions, with the
network modelled by the outcome it would produce if called.  Order of the
code: backoff guard; getLatestVersionWithTimeout (cache hit short-circuits
with no request); on resolution the status becomes success and the tracker
entry is deleted; on rejection handlePackageFailure runs. -/
def fetchOnePackage (st : ProviderState) (p : String) (now : Nat)
    (net : NetOutcome) : ReqResult :=
  if suppressed st p now then
    { state := st, netCalls := 0, status := .error, latestVersion := some "max-retries" }
  else
    match mapFind st.packageCache p with
    | some e =>
      if now - e.timestamp < CACHE_DURATION then
        { state := { st with failedPackages := mapErase st.failedPackages p }
          netCalls := 0
          status := .success
          latestVersion := some e.version }
      else
        fetchOnePackageNet st p now net
    | none => fetchOnePackageNet st p now net

/-!
## Invariants
-/

/-- Queue well-formedness of the prefetcher: no two queue items carry the
same package name, and no queued name is currently in flight. -/
def QueueInv (st : FetchState) : Prop :=
  (st.queue.map (fun i => i.packageName)).Nodup ∧
  ∀ i ∈ st.queue, i.packageName ∉ st.inProgress

instance (st : FetchState) : Decidable (QueueInv st) := by
  unfold QueueInv; infer_instance

/-- Key well-formedness of the provider maps: both JS Maps have unique keys. -/
def providerWF (st : ProviderState) : Prop :=
  (mapKeys st.packageCache).Nodup ∧ (mapKeys st.failedPackages).Nodup

instance (st : ProviderState) : Decidable (providerWF st) := by
  unfold providerWF; infer_instance

/-!
## Generic association-map lemmas
-/

@[simp] theorem mapFind_nil {α : Type} (p : String) : mapFind ([] : SMap α) p = none := rfl

@[simp] theorem mapFind_cons {α : Type} (e : String × α) (rest : SMap α) (p : String) :
    mapFind (e :: rest) p = if e.1 = p then some e.2 else mapFind rest p := rfl

@[simp] theorem mapErase_nil {α : Type} (p : String) : mapErase ([] : SMap α) p = [] := rfl

@[simp] theorem mapErase_cons {α : Type} (e : String × α) (rest : SMap α) (p : String) :
    mapErase (e :: rest) p = if e.1 = p then rest else e :: mapErase rest p := rfl

@[simp] theorem mapReplace_nil {α : Type} (p : String) (v : α) :
    mapReplace ([] : SMap α) p v = [] := rfl

@[simp] theorem mapReplace_cons {α : Type} (e : String × α) (rest : SMap α) (p : String) (v : α) :
    mapReplace (e :: rest) p v =
      if e.1 = p then (p, v) :: rest else e :: mapReplace rest p v := rfl

theorem mapFind_append {α : Type} (m₁ m₂ : SMap α) (p : String) :
    mapFind (m₁ ++ m₂) p =
      match mapFind m₁ p with
      | some v => some v
      | none => mapFind m₂ p := by
  induction m₁ with
  | nil => simp
  | cons e rest ih =>
    by_cases h : e.1 = p <;> simp [h, ih]

/-- A key absent from the key list is not found. -/
theorem mapFind_eq_none_of_not_mem {α : Type} (m : SMap α) (p : String)
    (hp : p ∉ mapKeys m) : mapFind m p = none := by
  induction m with
  | nil => rfl
  | cons e rest ih =>
    simp only [mapKeys, List.map_cons, List.mem_cons, not_or] at hp
    have he : e.1 ≠ p := fun hc => hp.1 hc.symm
    simp only [mapFind_cons, if_neg he]
    exact ih hp.2

/-- Looking up a key other than the erased one is unchanged. -/
theorem mapFind_mapErase_ne {α : Type} (m : SMap α) (p q : String) (h : q ≠ p) :
    mapFind (mapErase m p) q = mapFind m q := by
  induction m with
  | nil => simp
  | cons e rest ih =>
    have hpq : ¬ (p = q) := fun hc => h hc.symm
    by_cases he : e.1 = p
    · simp [he, hpq]
    · by_cases hq : e.1 = q <;> simp [he, hq, ih, h]

/-- With duplicate-free keys, the erased key is gone. -/
theorem mapFind_mapErase_self {α : Type} (m : SMap α) (p : String)
    (hnd : (mapKeys m).Nodup) : mapFind (mapErase m p) p = none := by
  induction m with
  | nil => simp
  | cons e rest ih =>
    simp only [mapKeys, List.map_cons, List.nodup_cons] at hnd
    by_cases he : e.1 = p
    · subst he
      simp only [mapErase_cons, if_pos rfl]
      exact mapFind_eq_none_of_not_mem rest e.1 hnd.1
    · simp only [mapErase_cons, if_neg he, mapFind_cons, if_neg he]
      exact ih hnd.2

/-- Looking up a key other than the replaced one is unchanged. -/
theorem mapFind_mapReplace_ne {α : Type} (m : SMap α) (p q : String) (v : α) (h : q ≠ p) :
    mapFind (mapReplace m p v) q = mapFind m q := by
  induction m with
  | nil => simp
  | cons e rest ih =>
    have hpq : ¬ (p = q) := fun hc => h hc.symm
    by_cases he : e.1 = p
    · simp [he, hpq]
    · by_cases hq : e.1 = q <;> simp [he, hq, ih, h]

/-- Replacing a present key makes lookup return the new value. -/
theorem mapFind_mapReplace_self {α : Type} (m : SMap α) (p : String) (v : α)
    (hp : mapFind m p ≠ none) : mapFind (mapReplace m p v) p = some v := by
  induction m with
  | nil => simp at hp
  | cons e rest ih =>
    by_cases he : e.1 = p
    · simp [he]
    · simp only [mapFind_cons, if_neg he] at hp
      simp [he, ih hp]

theorem mapFind_mapSet_self {α : Type} (m : SMap α) (p : String) (v : α) :
    mapFind (mapSet m p v) p = some v := by
  unfold mapSet
  cases hf : mapFind m p with
  | some w => exact mapFind_mapReplace_self m p v (by simp [hf])
  | none => simp [mapFind_append, hf]

theorem mapFind_mapSet_ne {α : Type} (m : SMap α) (p q : String) (v : α) (h : q ≠ p) :
    mapFind (mapSet m p v) q = mapFind m q := by
  unfold mapSet
  cases hf : mapFind m p with
  | some w => exact mapFind_mapReplace_ne m p q v h
  | none =>
    rw [mapFind_append]
    have hpq : ¬ (p = q) := fun hc => h hc.symm
    cases hq : mapFind m q with
    | some w => simp
    | none => simp [mapFind_cons, hpq]

theorem mapErase_sublist {α : Type} (m : SMap α) (p : String) :
    (mapErase m p).Sublist m := by
  induction m with
  | nil => simp
  | cons e rest ih =>
    by_cases he : e.1 = p
    · simp [he]
    · simpa [he] using ih.cons₂ e

theorem mapKeys_mapReplace {α : Type} (m : SMap α) (p : String) (v : α) :
    mapKeys (mapReplace m p v) = mapKeys m := by
  induction m with
  | nil => rfl
  | cons e rest ih =>
    by_cases he : e.1 = p
    · simp [mapKeys, he]
    · simp only [mapReplace_cons, if_neg he, mapKeys, List.map_cons]
      rw [show (mapReplace rest p v).map Prod.fst = mapKeys (mapReplace rest p v) from rfl, ih]
      rfl

theorem mem_of_mapFind_eq_some {α : Type} (m : SMap α) (p : String) (v : α)
    (h : mapFind m p = some v) : (p, v) ∈ m := by
  induction m with
  | nil => simp at h
  | cons e rest ih =>
    by_cases he : e.1 = p
    · simp only [mapFind_cons, if_pos he] at h
      have : e = (p, v) := by
        cases e
        simp only at he
        simp only [Option.some.injEq] at h
        simp [he, h]
      simp [this]
    · simp only [mapFind_cons, if_neg he] at h
      exact List.mem_cons_of_mem e (ih h)

theorem mapFind_eq_some_of_mem_nodup {α : Type} (m : SMap α) (p : String) (v : α)
    (hnd : (mapKeys m).Nodup) (h : (p, v) ∈ m) : mapFind m p = some v := by
  induction m with
  | nil => simp at h
  | cons e rest ih =>
    simp only [mapKeys, List.map_cons, List.nodup_cons] at hnd
    rcases List.mem_cons.mp h with h1 | h2
    · subst h1
      simp
    · have hne : e.1 ≠ p := by
        intro hc
        apply hnd.1
        rw [hc]
        exact List.mem_map.mpr ⟨(p, v), h2, rfl⟩
      simp only [mapFind_cons, if_neg hne]
      exact ih hnd.2 h2

theorem not_mem_mapKeys_of_mapFind_eq_none {α : Type} (m : SMap α) (p : String)
    (h : mapFind m p = none) : p ∉ mapKeys m := by
  induction m with
  | nil => simp [mapKeys]
  | cons e rest ih =>
    by_cases he : e.1 = p
    · simp [mapFind_cons, he] at h
    · simp only [mapFind_cons, if_neg he] at h
      simp only [mapKeys, List.map_cons, List.mem_cons, not_or]
      exact ⟨fun hc => he hc.symm, ih h⟩

theorem mapKeys_nodup_mapErase {α : Type} (m : SMap α) (p : String)
    (hnd : (mapKeys m).Nodup) : (mapKeys (mapErase m p)).Nodup := by
  have hsub : (mapKeys (mapErase m p)).Sublist (mapKeys m) :=
    (mapErase_sublist m p).map Prod.fst
  exact hnd.sublist hsub

theorem mapKeys_nodup_mapSet {α : Type} (m : SMap α) (p : String) (v : α)
    (hnd : (mapKeys m).Nodup) : (mapKeys (mapSet m p v)).Nodup := by
  unfold mapSet
  cases hf : mapFind m p with
  | some w => rw [mapKeys_mapReplace]; exact hnd
  | none =>
    have hp : p ∉ mapKeys m := not_mem_mapKeys_of_mapFind_eq_none m p hf
    simp only [mapKeys, List.map_append, List.map_cons, List.map_nil]
    rw [List.nodup_append]
    refine ⟨hnd, List.nodup_singleton p, ?_⟩
    intro x hx hy
    simp only [List.mem_singleton] at hy
    subst hy
    exact hp hx

theorem mem_mapErase_key_ne {α : Type} (m : SMap α) (p : String) (pr : String × α)
    (hnd : (mapKeys m).Nodup) (h : pr ∈ mapErase m p) : pr ∈ m ∧ pr.1 ≠ p := by
  refine ⟨(mapErase_sublist m p).subset h, ?_⟩
  intro hc
  have hnd2 : (mapKeys (mapErase m p)).Nodup := mapKeys_nodup_mapErase m p hnd
  have : mapFind (mapErase m p) p = some pr.2 := by
    apply mapFind_eq_some_of_mem_nodup _ _ _ hnd2
    have hpr : pr = (p, pr.2) := by
      cases pr
      simp only at hc
      simp [hc]
    rw [← hpr]
    exact h
  rw [mapFind_mapErase_self m p hnd] at this
  exact Option.noConfusion this

theorem mem_mapReplace {α : Type} (m : SMap α) (p : String) (v : α) (pr : String × α)
    (h : pr ∈ mapReplace m p v) : pr = (p, v) ∨ pr ∈ m := by
  induction m with
  | nil => simp [mapReplace] at h
  | cons e rest ih =>
    by_cases he : e.1 = p
    · simp only [mapReplace_cons, if_pos he, List.mem_cons] at h
      rcases h with h | h
      · exact Or.inl h
      · exact Or.inr (List.mem_cons_of_mem e h)
    · simp only [mapReplace_cons, if_neg he, List.mem_cons] at h
      rcases h with h | h
      · exact Or.inr (by simp [h])
      · rcases ih h with h2 | h2
        · exact Or.inl h2
        · exact Or.inr (List.mem_cons_of_mem e h2)

theorem mem_mapSet {α : Type} (m : SMap α) (p : String) (v : α) (pr : String × α)
    (h : pr ∈ mapSet m p v) : pr = (p, v) ∨ pr ∈ m := by
  unfold mapSet at h
  cases hf : mapFind m p with
  | some w =>
    rw [hf] at h
    exact mem_mapReplace m p v pr h
  | none =>
    rw [hf] at h
    rcases List.mem_append.mp h with h | h
    · exact Or.inr h
    · simp only [List.mem_singleton] at h
      exact Or.inl h

/-- Membership after Set.add. -/
theorem mem_setAdd (s : List String) (f x : String) :
    x ∈ setAdd s f ↔ x ∈ s ∨ x = f := by
  unfold setAdd
  by_cases h : f ∈ s
  · simp only [if_pos h]
    constructor
    · exact Or.inl
    · rintro (hx | hx)
      · exact hx
      · rw [hx]; exact h
  · simp [if_neg h]

/-!
## Package Cache lemmas
-/

theorem getCachedPackageLatestVersion_fst (c : Cache) (p : String) (now : Nat) :
    ∀ v, (getCachedPackageLatestVersion c p now).1 = some v ↔
      ∃ e, mapFind c p = some e ∧ e.version = v ∧ now - e.timestamp ≤ CACHE_TTL := by
  intro v
  unfold getCachedPackageLatestVersion
  cases hf : mapFind c p with
  | none => simp
  | some e =>
    by_cases hexp : now - e.timestamp > CACHE_TTL
    · simp only [if_pos hexp]
      constructor
      · intro h; exact absurd h (by simp)
      · rintro ⟨e2, he2, hv, hle⟩
        cases he2
        omega
    · simp only [if_neg hexp]
      constructor
      · intro h
        simp only [Option.some.injEq] at h
        exact ⟨e, rfl, h, by omega⟩
      · rintro ⟨e2, he2, hv, hle⟩
        cases he2
        simp [hv]

theorem getCachedPackageLatestVersion_snd_not_expired (c : Cache) (p : String) (now : Nat)
    (h : ∀ e, mapFind c p = some e → ¬ (now - e.timestamp > CACHE_TTL)) :
    (getCachedPackageLatestVersion c p now).2 = c := by
  unfold getCachedPackageLatestVersion
  cases hf : mapFind c p with
  | none => simp
  | some e => simp [h e hf]

theorem getCachedPackageLatestVersion_snd_expired (c : Cache) (p : String) (now : Nat)
    (e : CacheEntry) (hf : mapFind c p = some e) (h : now - e.timestamp > CACHE_TTL) :
    (getCachedPackageLatestVersion c p now).2 = mapErase c p := by
  unfold getCachedPackageLatestVersion
  rw [hf]
  simp [h]

theorem getCachedPackageLatestVersion_snd_find_ne (c : Cache) (p q : String) (now : Nat)
    (h : q ≠ p) :
    mapFind (getCachedPackageLatestVersion c p now).2 q = mapFind c q := by
  unfold getCachedPackageLatestVersion
  cases hf : mapFind c p with
  | none => rfl
  | some e =>
    by_cases hexp : now - e.timestamp > CACHE_TTL
    · simp only [if_pos hexp]
      exact mapFind_mapErase_ne c p q h
    · simp [hexp]

theorem getCachedPackageLatestVersion_snd_keys_nodup (c : Cache) (p : String) (now : Nat)
    (hnd : (mapKeys c).Nodup) : (mapKeys (getCachedPackageLatestVersion c p now).2).Nodup := by
  unfold getCachedPackageLatestVersion
  cases hf : mapFind c p with
  | none => exact hnd
  | some e =>
    by_cases hexp : now - e.timestamp > CACHE_TTL
    · simp only [if_pos hexp]
      exact mapKeys_nodup_mapErase c p hnd
    · simp only [if_neg hexp]
      exact hnd

/-- A missing entry stays missing through a lookup of any name. -/
theorem getCachedPackageLatestVersion_snd_find_none (c : Cache) (p q : String) (now : Nat)
    (h : mapFind c q = none) :
    mapFind (getCachedPackageLatestVersion c p now).2 q = none := by
  by_cases hpq : q = p
  · subst hpq
    unfold getCachedPackageLatestVersion
    rw [h]
    exact h
  · rw [getCachedPackageLatestVersion_snd_find_ne c p q now hpq]
    exact h

/-- The returned value of a lookup depends only on the entry stored under the
looked-up name. -/
theorem getCachedPackageLatestVersion_fst_congr (c c2 : Cache) (p : String) (now : Nat)
    (h : mapFind c p = mapFind c2 p) :
    (getCachedPackageLatestVersion c p now).1 = (getCachedPackageLatestVersion c2 p now).1 := by
  unfold getCachedPackageLatestVersion
  rw [h]
  cases hf : mapFind c2 p with
  | none => rfl
  | some e =>
    by_cases hexp : now - e.timestamp > CACHE_TTL <;> simp [hexp]

/-- The value a lookup of n returns is unchanged by a preceding lookup of any
name m: the only mutation a lookup performs is evicting an entry it would
anyway report as absent. -/
theorem getCachedPackageLatestVersion_stable (c : Cache) (m n : String) (now : Nat)
    (hnd : (mapKeys c).Nodup) :
    (getCachedPackageLatestVersion (getCachedPackageLatestVersion c m now).2 n now).1 =
      (getCachedPackageLatestVersion c n now).1 := by
  by_cases hmn : n = m
  · subst hmn
    cases hf : mapFind c n with
    | none =>
      have : (getCachedPackageLatestVersion c n now).2 = c := by
        unfold getCachedPackageLatestVersion
        rw [hf]
      rw [this]
    | some e =>
      by_cases hexp : now - e.timestamp > CACHE_TTL
      · rw [getCachedPackageLatestVersion_snd_expired c n now e hf hexp]
        have h1 : mapFind (mapErase c n) n = none := mapFind_mapErase_self c n hnd
        have h2 : (getCachedPackageLatestVersion (mapErase c n) n now).1 = none := by
          unfold getCachedPackageLatestVersion
          rw [h1]
        have h3 : (getCachedPackageLatestVersion c n now).1 = none := by
          unfold getCachedPackageLatestVersion
          rw [hf]
          simp [hexp]
        rw [h2, h3]
      · rw [getCachedPackageLatestVersion_snd_not_expired c n now]
        intro e2 hf2
        rw [hf] at hf2
        cases hf2
        exact hexp
  · exact getCachedPackageLatestVersion_fst_congr _ _ n now
      (getCachedPackageLatestVersion_snd_find_ne c m n now hmn)

theorem markForRefresh_cons (c : Cache) (n : String) (rest : List String) :
    markForRefresh c (n :: rest) =
      markForRefresh
        (match mapFind c n with
         | some entry => mapReplace c n { entry with timestamp := 0 }
         | none => c) rest := rfl

theorem mapKeys_markForRefresh (c : Cache) (names : List String) :
    mapKeys (markForRefresh c names) = mapKeys c := by
  induction names generalizing c with
  | nil => rfl
  | cons n rest ih =>
    rw [markForRefresh_cons]
    cases hf : mapFind c n with
    | none => exact ih c
    | some e =>
      rw [ih]
      exact mapKeys_mapReplace c n { e with timestamp := 0 }

theorem mapFind_markForRefresh_not_mem (c : Cache) (names : List String) (p : String)
    (hp : p ∉ names) : mapFind (markForRefresh c names) p = mapFind c p := by
  induction names generalizing c with
  | nil => rfl
  | cons n rest ih =>
    simp only [List.mem_cons, not_or] at hp
    rw [markForRefresh_cons]
    cases hf : mapFind c n with
    | none => exact ih c hp.2
    | some e =>
      rw [ih _ hp.2]
      exact mapFind_mapReplace_ne c n p _ hp.1

theorem mapFind_markForRefresh_none (c : Cache) (names : List String) (p : String)
    (h : mapFind c p = none) : mapFind (markForRefresh c names) p = none := by
  induction names generalizing c with
  | nil => exact h
  | cons n rest ih =>
    rw [markForRefresh_cons]
    cases hf : mapFind c n with
    | none => exact ih c h
    | some e =>
      apply ih
      by_cases hnp : p = n
      · subst hnp
        rw [h] at hf
        exact Option.noConfusion hf
      · rw [mapFind_mapReplace_ne c n p _ hnp]
        exact h

theorem mapFind_markForRefresh_mem (c : Cache) (names : List String) (p : String)
    (e : CacheEntry) (hp : p ∈ names) (he : mapFind c p = some e) :
    mapFind (markForRefresh c names) p = some { e with timestamp := 0 } := by
  induction names generalizing c e with
  | nil => simp at hp
  | cons n rest ih =>
    rw [markForRefresh_cons]
    by_cases hnp : n = p
    · subst hnp
      rw [he]
      have hrep : mapFind (mapReplace c n { e with timestamp := 0 }) n =
          some { e with timestamp := 0 } :=
        mapFind_mapReplace_self c n _ (by simp [he])
      by_cases hrest : n ∈ rest
      · have := ih (mapReplace c n { e with timestamp := 0 }) { e with timestamp := 0 } hrest hrep
        simpa using this
      · rw [mapFind_markForRefresh_not_mem _ rest n hrest]
        exact hrep
    · have hrest : p ∈ rest := by
        rcases List.mem_cons.mp hp with h | h
        · exact absurd h.symm hnp
        · exact h
      cases hf : mapFind c n with
      | none => exact ih c e hrest he
      | some e2 =>
        apply ih _ e hrest
        rw [mapFind_mapReplace_ne c n p _ (fun hc => hnp hc.symm)]
        exact he

/-!
## clearCacheForFile lemmas
-/

theorem clearCacheForFile_cons (pr : String × CacheEntry) (rest : Cache) (f : String) :
    clearCacheForFile (pr :: rest) f =
      if (pr.2.files.filter (fun x => x ≠ f)) = [] then clearCacheForFile rest f
      else (pr.1, { pr.2 with files := pr.2.files.filter (fun x => x ≠ f) }) ::
        clearCacheForFile rest f := rfl

theorem mapKeys_clearCacheForFile_subset (c : Cache) (f : String) :
    ∀ x ∈ mapKeys (clearCacheForFile c f), x ∈ mapKeys c := by
  induction c with
  | nil => intro x hx; exact absurd hx (by simp [clearCacheForFile, mapKeys])
  | cons pr rest ih =>
    intro x hx
    rw [clearCacheForFile_cons] at hx
    by_cases hemp : (pr.2.files.filter (fun y => y ≠ f)) = []
    · rw [if_pos hemp] at hx
      exact List.mem_cons_of_mem pr.1 (ih x hx)
    · rw [if_neg hemp] at hx
      simp only [mapKeys, List.map_cons, List.mem_cons] at hx ⊢
      rcases hx with hx | hx
      · exact Or.inl hx
      · exact Or.inr (ih x hx)

theorem mapFind_clearCacheForFile_none (c : Cache) (f p : String)
    (h : mapFind c p = none) : mapFind (clearCacheForFile c f) p = none := by
  apply mapFind_eq_none_of_not_mem
  intro hc
  exact (not_mem_mapKeys_of_mapFind_eq_none c p h)
    (mapKeys_clearCacheForFile_subset c f p hc)

theorem mapFind_clearCacheForFile_some (c : Cache) (f p : String) (e : CacheEntry)
    (hnd : (mapKeys c).Nodup) (he : mapFind c p = some e) :
    mapFind (clearCacheForFile c f) p =
      if e.files.filter (fun x => x ≠ f) = [] then none
      else some { e with files := e.files.filter (fun x => x ≠ f) } := by
  induction c with
  | nil => simp at he
  | cons pr rest ih =>
    simp only [mapKeys, List.map_cons, List.nodup_cons] at hnd
    rw [clearCacheForFile_cons]
    by_cases hkp : pr.1 = p
    · subst hkp
      have hpe : pr.2 = e := by
        simpa using he
      subst hpe
      by_cases hemp : (pr.2.files.filter (fun x => x ≠ f)) = []
      · rw [if_pos hemp, if_pos hemp]
        exact mapFind_clearCacheForFile_none rest f pr.1
          (mapFind_eq_none_of_not_mem rest pr.1 hnd.1)
      · rw [if_neg hemp, if_neg hemp]
        simp
    · have he2 : mapFind rest p = some e := by
        simpa [mapFind_cons, hkp] using he
      by_cases hemp : (pr.2.files.filter (fun x => x ≠ f)) = []
      · rw [if_pos hemp]
        exact ih hnd.2 he2
      · rw [if_neg hemp]
        simp only [mapFind_cons, if_neg hkp]
        exact ih hnd.2 he2

/-!
## Prefetch queue lemmas
-/

theorem filterNewPackages_fst_sublist (cache : Cache) (inP : List String) (q : List QItem)
    (names : List String) (now : Nat) :
    (filterNewPackages cache inP q names now).1.Sublist names := by
  induction names generalizing cache with
  | nil => simp [filterNewPackages]
  | cons n rest ih =>
    simp only [filterNewPackages]
    by_cases hk : ¬ truthy (getCachedPackageLatestVersion cache n now).1 ∧
        n ∉ inP ∧ ∀ item ∈ q, item.packageName ≠ n
    · rw [if_pos hk]
      exact (ih _).cons₂ n
    · rw [if_neg hk]
      exact (ih _).cons n

theorem filterNewPackages_fst_mem (cache : Cache) (inP : List String) (q : List QItem)
    (names : List String) (now : Nat) (x : String) (hnd : (mapKeys cache).Nodup) :
    x ∈ (filterNewPackages cache inP q names now).1 ↔
      x ∈ names ∧ ¬ truthy (getCachedPackageLatestVersion cache x now).1 ∧
        x ∉ inP ∧ ∀ item ∈ q, item.packageName ≠ x := by
  induction names generalizing cache with
  | nil => simp [filterNewPackages]
  | cons n rest ih =>
    simp only [filterNewPackages]
    have hnd2 := getCachedPackageLatestVersion_snd_keys_nodup cache n now hnd
    have ihr := ih (getCachedPackageLatestVersion cache n now).2 hnd2
    rw [getCachedPackageLatestVersion_stable cache n x now hnd] at ihr
    by_cases hk : ¬ truthy (getCachedPackageLatestVersion cache n now).1 ∧
        n ∉ inP ∧ ∀ item ∈ q, item.packageName ≠ n
    · rw [if_pos hk]
      constructor
      · intro hx
        rcases List.mem_cons.mp hx with hx | hx
        · subst hx
          exact ⟨List.mem_cons_self x rest, hk.1, hk.2.1, hk.2.2⟩
        · rcases ihr.mp hx with ⟨h1, h2, h3, h4⟩
          exact ⟨List.mem_cons_of_mem n h1, h2, h3, h4⟩
      · rintro ⟨h1, h2, h3, h4⟩
        rcases List.mem_cons.mp h1 with h1 | h1
        · subst h1
          exact List.mem_cons_self x _
        · exact List.mem_cons_of_mem n (ihr.mpr ⟨h1, h2, h3, h4⟩)
    · rw [if_neg hk]
      constructor
      · intro hx
        rcases ihr.mp hx with ⟨h1, h2, h3, h4⟩
        exact ⟨List.mem_cons_of_mem n h1, h2, h3, h4⟩
      · rintro ⟨h1, h2, h3, h4⟩
        rcases List.mem_cons.mp h1 with h1 | h1
        · subst h1
          exact absurd ⟨h2, h3, h4⟩ hk
        · exact ihr.mpr ⟨h1, h2, h3, h4⟩

theorem filterNewPackages_snd_find_none_of_none (cache : Cache) (inP : List String)
    (q : List QItem) (names : List String) (now : Nat) (p : String)
    (h : mapFind cache p = none) :
    mapFind (filterNewPackages cache inP q names now).2 p = none := by
  induction names generalizing cache with
  | nil => exact h
  | cons n rest ih =>
    simp only [filterNewPackages]
    exact ih _ (getCachedPackageLatestVersion_snd_find_none cache n p now h)

theorem filterNewPackages_snd_keys_nodup (cache : Cache) (inP : List String)
    (q : List QItem) (names : List String) (now : Nat) (hnd : (mapKeys cache).Nodup) :
    (mapKeys (filterNewPackages cache inP q names now).2).Nodup := by
  induction names generalizing cache with
  | nil => exact hnd
  | cons n rest ih =>
    simp only [filterNewPackages]
    exact ih _ (getCachedPackageLatestVersion_snd_keys_nodup cache n now hnd)

/-- Looking up every name of the list evicts the entry of any listed name
whose entry is expired (or absent). -/
theorem filterNewPackages_snd_find_none (cache : Cache) (inP : List String)
    (q : List QItem) (names : List String) (now : Nat) (p : String)
    (hnd : (mapKeys cache).Nodup) (hp : p ∈ names)
    (hexp : ∀ e, mapFind cache p = some e → now - e.timestamp > CACHE_TTL) :
    mapFind (filterNewPackages cache inP q names now).2 p = none := by
  induction names generalizing cache with
  | nil => simp at hp
  | cons n rest ih =>
    simp only [filterNewPackages]
    by_cases hnp : n = p
    · subst hnp
      cases hf : mapFind cache n with
      | none =>
        exact filterNewPackages_snd_find_none_of_none _ inP q rest now n
          (getCachedPackageLatestVersion_snd_find_none cache n n now hf)
      | some e =>
        have hdel : mapFind (getCachedPackageLatestVersion cache n now).2 n = none := by
          rw [getCachedPackageLatestVersion_snd_expired cache n now e hf (hexp e hf)]
          exact mapFind_mapErase_self cache n hnd
        exact filterNewPackages_snd_find_none_of_none _ inP q rest now n hdel
    · have hrest : p ∈ rest := by
        rcases List.mem_cons.mp hp with h | h
        · exact absurd h.symm hnp
        · exact h
      apply ih _ (getCachedPackageLatestVersion_snd_keys_nodup cache n now hnd) hrest
      intro e he
      apply hexp
      rw [← getCachedPackageLatestVersion_snd_find_ne cache n p now (fun hc => hnp hc.symm)]
      exact he

/-- A lookup that returns a truthy hit does not modify the cache. -/
theorem getCachedPackageLatestVersion_snd_of_hit (c : Cache) (p : String) (now : Nat)
    (h : truthy (getCachedPackageLatestVersion c p now).1 = true) :
    (getCachedPackageLatestVersion c p now).2 = c := by
  apply getCachedPackageLatestVersion_snd_not_expired
  intro e hf hexp
  have hnone : (getCachedPackageLatestVersion c p now).1 = none := by
    unfold getCachedPackageLatestVersion
    rw [hf]
    simp [hexp]
  rw [hnone] at h
  simp [truthy] at h

/-- When every requested name is a truthy cache hit, the filter keeps nothing
and the cache is untouched. -/
theorem filterNewPackages_all_hit (cache : Cache) (inP : List String) (q : List QItem)
    (names : List String) (now : Nat)
    (h : ∀ m ∈ names, truthy (getCachedPackageLatestVersion cache m now).1 = true) :
    filterNewPackages cache inP q names now = ([], cache) := by
  induction names with
  | nil => rfl
  | cons n rest ih =>
    have hn := h n (List.mem_cons_self n rest)
    have hsnd := getCachedPackageLatestVersion_snd_of_hit cache n now hn
    simp only [filterNewPackages, hsnd]
    have hk : ¬ (¬ truthy (getCachedPackageLatestVersion cache n now).1 ∧
        n ∉ inP ∧ ∀ item ∈ q, item.packageName ≠ n) := by
      intro hc
      exact hc.1 (by simp [hn])
    rw [if_neg hk]
    rw [ih (fun m hm => h m (List.mem_cons_of_mem n hm))]

/-- Membership in the in-progress set after marking a batch. -/
theorem mem_foldl_setAdd (batch : List QItem) (s : List String) (x : String) :
    x ∈ batch.foldl (fun acc i => setAdd acc i.packageName) s ↔
      x ∈ s ∨ x ∈ batch.map (fun i => i.packageName) := by
  induction batch generalizing s with
  | nil => simp
  | cons b rest ih =>
    simp only [List.foldl_cons, List.map_cons, List.mem_cons]
    rw [ih, mem_setAdd]
    tauto

/-!
## Drain loop lemmas
-/

theorem drainBatchesGo_congr : ∀ (f g : Nat) (q : List QItem), q.length ≤ f → q.length ≤ g →
    drainBatchesGo f q = drainBatchesGo g q := by
  intro f
  induction f with
  | zero =>
    intro g q hf hg
    have hq : q = [] := List.eq_nil_of_length_eq_zero (Nat.le_zero.mp hf)
    subst hq
    cases g <;> simp [drainBatchesGo]
  | succ f ih =>
    intro g q hf hg
    cases g with
    | zero =>
      have hq : q = [] := List.eq_nil_of_length_eq_zero (Nat.le_zero.mp hg)
      subst hq
      simp [drainBatchesGo]
    | succ g =>
      by_cases hq : q = []
      · subst hq
        simp [drainBatchesGo]
      · simp only [drainBatchesGo, if_neg hq]
        congr 1
        have hlen : 0 < q.length := List.length_pos.mpr hq
        apply ih
        · simp only [List.length_drop, BATCH_SIZE]
          omega
        · simp only [List.length_drop, BATCH_SIZE]
          omega

theorem drainBatches_nil : drainBatches [] = [] := rfl

theorem drainBatches_cons (q : List QItem) (h : q ≠ []) :
    drainBatches q =
      (q.take BATCH_SIZE, decide (q.drop BATCH_SIZE ≠ [])) ::
        drainBatches (q.drop BATCH_SIZE) := by
  unfold drainBatches
  cases hq : q.length with
  | zero => exact absurd (List.eq_nil_of_length_eq_zero hq) h
  | succ k =>
    simp only [drainBatchesGo, if_neg h]
    congr 1
    apply drainBatchesGo_congr
    · simp only [List.length_drop, BATCH_SIZE]
      omega
    · simp [List.length_drop]

theorem drainBatches_ne_nil (q : List QItem) (h : q ≠ []) : drainBatches q ≠ [] := by
  rw [drainBatches_cons q h]
  simp

theorem drainBatches_flatten_aux : ∀ (n : Nat) (q : List QItem), q.length ≤ n →
    ((drainBatches q).map (fun b => b.1)).flatten = q := by
  intro n
  induction n with
  | zero =>
    intro q h
    have hq : q = [] := List.eq_nil_of_length_eq_zero (Nat.le_zero.mp h)
    subst hq
    rfl
  | succ n ih =>
    intro q h
    by_cases hq : q = []
    · subst hq
      rfl
    · rw [drainBatches_cons q hq]
      simp only [List.map_cons, List.flatten_cons]
      rw [ih (q.drop BATCH_SIZE)]
      · exact List.take_append_drop BATCH_SIZE q
      · have hlen : 0 < q.length := List.length_pos.mpr hq
        simp only [List.length_drop, BATCH_SIZE]
        omega

/-- The batches partition the queue snapshot in FIFO order. -/
theorem drainBatches_flatten (q : List QItem) :
    ((drainBatches q).map (fun b => b.1)).flatten = q :=
  drainBatches_flatten_aux q.length q (Nat.le_refl _)

theorem drainBatches_batch_size_aux : ∀ (n : Nat) (q : List QItem), q.length ≤ n →
    ∀ b ∈ drainBatches q, b.1.length ≤ BATCH_SIZE ∧ b.1 ≠ [] := by
  intro n
  induction n with
  | zero =>
    intro q h b hb
    have hq : q = [] := List.eq_nil_of_length_eq_zero (Nat.le_zero.mp h)
    subst hq
    simp [drainBatches_nil] at hb
  | succ n ih =>
    intro q h b hb
    by_cases hq : q = []
    · subst hq
      simp [drainBatches_nil] at hb
    · rw [drainBatches_cons q hq] at hb
      rcases List.mem_cons.mp hb with hb | hb
      · subst hb
        constructor
        · simp [List.length_take]
        · intro hc
          have h5 : 0 < BATCH_SIZE := by simp [BATCH_SIZE]
          have := List.take_eq_nil_iff.mp hc
          rcases this with h0 | h0
          · omega
          · exact hq h0
      · refine ih (q.drop BATCH_SIZE) ?_ b hb
        have hlen : 0 < q.length := List.length_pos.mpr hq
        simp only [List.length_drop, BATCH_SIZE]
        omega

/-- Every batch holds between 1 and BATCH_SIZE items. -/
theorem drainBatches_batch_size (q : List QItem) :
    ∀ b ∈ drainBatches q, b.1.length ≤ BATCH_SIZE ∧ b.1 ≠ [] :=
  drainBatches_batch_size_aux q.length q (Nat.le_refl _)

theorem drainBatches_flags_aux : ∀ (n : Nat) (q : List QItem), q.length ≤ n → q ≠ [] →
    (drainBatches q).map (fun b => b.2) =
      List.replicate ((drainBatches q).length - 1) true ++ [false] := by
  intro n
  induction n with
  | zero =>
    intro q h hq
    exact absurd (List.eq_nil_of_length_eq_zero (Nat.le_zero.mp h)) hq
  | succ n ih =>
    intro q h hq
    rw [drainBatches_cons q hq]
    by_cases hrest : q.drop BATCH_SIZE = []
    · rw [hrest]
      simp [drainBatches_nil]
    · have hlen : 0 < q.length := List.length_pos.mpr hq
      have hle : (q.drop BATCH_SIZE).length ≤ n := by
        simp only [List.length_drop, BATCH_SIZE]
        omega
      have ihr := ih (q.drop BATCH_SIZE) hle hrest
      have hne : drainBatches (q.drop BATCH_SIZE) ≠ [] :=
        drainBatches_ne_nil _ hrest
      have hpos : 0 < (drainBatches (q.drop BATCH_SIZE)).length :=
        List.length_pos.mpr hne
      have hflag : decide (q.drop BATCH_SIZE ≠ []) = true := by
        simp [hrest]
      simp only [List.map_cons, hflag, ihr, List.length_cons]
      rw [show (drainBatches (q.drop BATCH_SIZE)).length + 1 - 1 =
        ((drainBatches (q.drop BATCH_SIZE)).length - 1) + 1 by omega]
      rw [List.replicate_succ]
      simp

/-- The inter-batch delay is awaited after every batch except the last. -/
theorem drainBatches_flags (q : List QItem) (hq : q ≠ []) :
    (drainBatches q).map (fun b => b.2) =
      List.replicate ((drainBatches q).length - 1) true ++ [false] :=
  drainBatches_flags_aux q.length q (Nat.le_refl _) hq

/-!
## Provider lemmas
-/

/-- The network path always issues exactly one request. -/
theorem fetchOnePackageNet_netCalls (st : ProviderState) (p : String) (now : Nat)
    (net : NetOutcome) : (fetchOnePackageNet st p now net).netCalls = 1 := by
  unfold fetchOnePackageNet
  cases net with
  | ok latest =>
    cases latest with
    | none => rfl
    | some v =>
      by_cases hv : v ≠ "" <;> simp [hv]
  | _ => rfl

theorem handlePackageFailure_notFound (st : ProviderState) (p : String) (now : Nat) :
    handlePackageFailure st p .notFound now = (st, .notFound, some "not-found") := rfl

theorem handlePackageFailure_other_state (st : ProviderState) (p : String)
    (o : NetOutcome) (now : Nat) (ho : msgHasNotFound o = false) :
    (handlePackageFailure st p o now).1 =
      { st with failedPackages := mapSet st.failedPackages p ⟨((mapFind st.failedPackages p).getD ⟨0, 0⟩).attempts + 1, now⟩ } := by
  unfold handlePackageFailure
  rw [ho]
  by_cases ht : msgHasTimeout o = true
  · simp [ht]
  · simp only [Bool.not_eq_true] at ht
    rw [ht]
    by_cases hr : msgHasRateLimited o = true
    · simp [hr]
    · simp only [Bool.not_eq_true] at hr
      rw [hr]
      simp

/-- No surviving entry of clearCacheForFile still holds the cleared file. -/
theorem mem_clearCacheForFile_not_file (c : Cache) (f : String) :
    ∀ pr ∈ clearCacheForFile c f, f ∉ pr.2.files := by
  induction c with
  | nil => intro pr hpr; exact absurd hpr (by simp [clearCacheForFile])
  | cons hd rest ih =>
    intro pr hpr
    rw [clearCacheForFile_cons] at hpr
    by_cases hemp : (hd.2.files.filter (fun x => x ≠ f)) = []
    · rw [if_pos hemp] at hpr
      exact ih pr hpr
    · rw [if_neg hemp] at hpr
      rcases List.mem_cons.mp hpr with hpr | hpr
      · subst hpr
        intro hc
        rcases List.mem_filter.mp hc with ⟨_, hdec⟩
        simp at hdec
      · exact ih pr hpr

/-!
## Claims
-/

/-- C3 counterexample: at the boundary instant now - timestamp = CACHE_TTL
the code still returns the cached version, although now - timestamp < TTL
fails, so the biconditional of the claim is false at this input. -/
theorem C3_counterexample :
    (getCachedPackageLatestVersion [("a", ⟨"1.0.0", 0, []⟩)] "a" CACHE_TTL).1 =
        some "1.0.0" ∧
      ¬ (CACHE_TTL - (0 : Nat) < CACHE_TTL) := by
  constructor
  · rfl
  · decide

/-- C3 (amended): get returns the cached version iff an entry exists with
now - timestamp ≤ CACHE_TTL (the expiry test of the code is strict
greater-than, so the boundary instant is still a hit); an entry with
now - timestamp > CACHE_TTL is reported absent and deleted immediately by the
lookup, leaving every other entry unchanged. -/
theorem C3_get_spec (c : Cache) (p : String) (now : Nat)
    (hnd : (mapKeys c).Nodup) :
    (∀ v, (getCachedPackageLatestVersion c p now).1 = some v ↔
      ∃ e, mapFind c p = some e ∧ e.version = v ∧ now - e.timestamp ≤ CACHE_TTL) ∧
    (∀ e, mapFind c p = some e → now - e.timestamp > CACHE_TTL →
      (getCachedPackageLatestVersion c p now).1 = none ∧
      mapFind (getCachedPackageLatestVersion c p now).2 p = none ∧
      ∀ q, q ≠ p → mapFind (getCachedPackageLatestVersion c p now).2 q = mapFind c q) := by
  constructor
  · exact getCachedPackageLatestVersion_fst c p now
  · intro e he hexp
    refine ⟨?_, ?_, ?_⟩
    · unfold getCachedPackageLatestVersion
      rw [he]
      simp [hexp]
    · rw [getCachedPackageLatestVersion_snd_expired c p now e he hexp]
      exact mapFind_mapErase_self c p hnd
    · intro q hq
      exact getCachedPackageLatestVersion_snd_find_ne c p q now hq

theorem C3_get_spec_witness :
    (getCachedPackageLatestVersion [("a", ⟨"2.0.0", 100, []⟩)] "a" 2000000).1 = none ∧
      mapFind (getCachedPackageLatestVersion [("a", ⟨"2.0.0", 100, []⟩)] "a" 2000000).2 "a" =
        none := by
  have h := (C3_get_spec [("a", ⟨"2.0.0", 100, []⟩)] "a" 2000000 (by decide)).2
    ⟨"2.0.0", 100, []⟩ (by decide) (by decide)
  exact ⟨h.1, h.2.1⟩

/-- C6: clearCacheForFile removes the file from every entry; an entry whose
file set becomes empty is deleted; an entry still referenced by another file
survives with its version and timestamp unchanged and the file gone. -/
theorem C6_clearCacheForFile_spec (c : Cache) (f p : String) (e : CacheEntry)
    (hnd : (mapKeys c).Nodup) (he : mapFind c p = some e) :
    (e.files.filter (fun x => x ≠ f) = [] →
      mapFind (clearCacheForFile c f) p = none) ∧
    (e.files.filter (fun x => x ≠ f) ≠ [] →
      mapFind (clearCacheForFile c f) p =
        some { version := e.version, timestamp := e.timestamp,
               files := e.files.filter (fun x => x ≠ f) }) ∧
    (∀ q e2, mapFind (clearCacheForFile c f) q = some e2 → f ∉ e2.files) := by
  refine ⟨?_, ?_, ?_⟩
  · intro hemp
    rw [mapFind_clearCacheForFile_some c f p e hnd he]
    rw [if_pos hemp]
  · intro hemp
    rw [mapFind_clearCacheForFile_some c f p e hnd he]
    rw [if_neg hemp]
  · intro q e2 hq
    exact mem_clearCacheForFile_not_file c f (q, e2) (mem_of_mapFind_eq_some _ _ _ hq)

theorem C6_clearCacheForFile_witness :
    mapFind (clearCacheForFile
        [("a", ⟨"1.0.0", 7, ["f.json", "g.json"]⟩), ("b", ⟨"2.0.0", 9, ["f.json"]⟩)]
        "f.json") "a" = some ⟨"1.0.0", 7, ["g.json"]⟩ ∧
      mapFind (clearCacheForFile
        [("a", ⟨"1.0.0", 7, ["f.json", "g.json"]⟩), ("b", ⟨"2.0.0", 9, ["f.json"]⟩)]
        "f.json") "b" = none := by
  constructor
  · exact (C6_clearCacheForFile_spec _ "f.json" "a" ⟨"1.0.0", 7, ["f.json", "g.json"]⟩
      (by decide) (by decide)).2.1 (by decide)
  · exact (C6_clearCacheForFile_spec _ "f.json" "b" ⟨"2.0.0", 9, ["f.json"]⟩
      (by decide) (by decide)).1 (by decide)

/-- C9 (implicit): setCachedVersion without a filePath creates an entry whose
file set is empty, and clearCacheForFile deletes every entry whose file set
is empty, even when that entry never contained the cleared file; so
invalidating one file can evict entries no file was recorded as consuming. -/
theorem C9_empty_fileset_eviction (c : Cache) (f p v : String) (now : Nat)
    (hnd : (mapKeys c).Nodup) :
    (mapFind c p = none →
      mapFind (setCachedVersion c p v none now) p = some ⟨v, now, []⟩) ∧
    (∀ q e, mapFind c q = some e → e.files = [] →
      f ∉ e.files ∧ mapFind (clearCacheForFile c f) q = none) := by
  constructor
  · intro hnone
    unfold setCachedVersion
    rw [hnone, mapFind_append, hnone]
    simp
  · intro q e he hemp
    refine ⟨by rw [hemp]; exact List.not_mem_nil f, ?_⟩
    rw [mapFind_clearCacheForFile_some c f q e hnd he]
    rw [if_pos (by rw [hemp]; rfl)]

theorem C9_empty_fileset_eviction_witness :
    mapFind (setCachedVersion [] "lodash" "4.17.21" none 50) "lodash" =
        some ⟨"4.17.21", 50, []⟩ ∧
      mapFind (clearCacheForFile [("lodash", ⟨"4.17.21", 50, []⟩)] "f.json") "lodash" =
        none := by
  constructor
  · exact (C9_empty_fileset_eviction [] "f.json" "lodash" "4.17.21" 50 (by decide)).1 rfl
  · exact ((C9_empty_fileset_eviction [("lodash", ⟨"4.17.21", 50, []⟩)] "f.json"
      "lodash" "4.17.21" 50 (by decide)).2 "lodash" ⟨"4.17.21", 50, []⟩
      (by decide) rfl).2

/-- C2 counterexample: a cached entry consumed by f.json is marked for
refresh and re-enqueued by refreshPackages; the addPackages cache probe finds
the zeroed timestamp expired and evicts the whole entry, so the consumingFiles
set is lost while the refetch is in flight, contrary to the claim. -/
theorem C2_counterexample :
    (mapFind ([("a", ⟨"1.0.0", 5, ["f.json"]⟩)] : Cache) "a").map
        (fun e => e.files) = some ["f.json"] ∧
      mapFind (refreshPackages ⟨[], [], [("a", ⟨"1.0.0", 5, ["f.json"]⟩)]⟩
        ["a"] 10000000).cache "a" = none := by
  decide

/-- C2 (amended): markForRefresh itself sets the timestamp of each listed
present entry to 0 without deleting it and without touching its version or
file set, creates nothing for absent names, leaves unlisted entries
unchanged, and the next get treats the entry as expired; however the
re-enqueue step of refreshPackages probes the cache and its lazy expiry then
evicts the marked entry, so the consumingFiles set is lost during the
refetch rather than preserved. -/
theorem C2_markForRefresh_spec (c : Cache) (names : List String) (p : String)
    (now : Nat) (hnd : (mapKeys c).Nodup) :
    (∀ e, mapFind c p = some e → p ∈ names →
      mapFind (markForRefresh c names) p = some { e with timestamp := 0 } ∧
      (CACHE_TTL < now →
        (getCachedPackageLatestVersion (markForRefresh c names) p now).1 = none)) ∧
    (mapFind c p = none → mapFind (markForRefresh c names) p = none) ∧
    (p ∉ names → mapFind (markForRefresh c names) p = mapFind c p) ∧
    (∀ st : FetchState, st.cache = c → p ∈ names → CACHE_TTL < now →
      mapFind (refreshPackages st names now).cache p = none) := by
  refine ⟨?_, ?_, ?_, ?_⟩
  · intro e he hp
    have hmark := mapFind_markForRefresh_mem c names p e hp he
    refine ⟨hmark, ?_⟩
    intro hnow
    unfold getCachedPackageLatestVersion
    rw [hmark]
    simp only []
    rw [if_pos (by simpa using hnow)]
  · exact mapFind_markForRefresh_none c names p
  · exact mapFind_markForRefresh_not_mem c names p
  · intro st hst hp hnow
    have hndm : (mapKeys (markForRefresh st.cache names)).Nodup := by
      rw [mapKeys_markForRefresh, hst]
      exact hnd
    unfold refreshPackages addPackages
    apply filterNewPackages_snd_find_none _ _ _ _ _ _ hndm hp
    intro e he
    cases hf : mapFind st.cache p with
    | none =>
      rw [mapFind_markForRefresh_none st.cache names p hf] at he
      exact Option.noConfusion he
    | some e0 =>
      rw [mapFind_markForRefresh_mem st.cache names p e0 hp hf] at he
      cases he
      simpa using hnow

theorem C2_markForRefresh_spec_witness :
    mapFind (markForRefresh [("a", ⟨"1.0.0", 5, ["f.json"]⟩)] ["a"]) "a" =
        some ⟨"1.0.0", 0, ["f.json"]⟩ ∧
      mapFind (refreshPackages ⟨[], [], [("a", ⟨"1.0.0", 5, ["f.json"]⟩)]⟩
        ["a"] 10000000).cache "a" = none := by
  have h := C2_markForRefresh_spec [("a", ⟨"1.0.0", 5, ["f.json"]⟩)] ["a"] "a"
    10000000 (by decide)
  constructor
  · exact (h.1 ⟨"1.0.0", 5, ["f.json"]⟩ (by decide) (by decide)).1
  · exact h.2.2.2 ⟨[], [], [("a", ⟨"1.0.0", 5, ["f.json"]⟩)]⟩ rfl (by decide) (by decide)

theorem handleFetchResult_queue (st : FetchState) (item : QItem) (out : FetchOutcome)
    (now : Nat) : (handleFetchResult st item out now).queue = st.queue := by
  unfold handleFetchResult
  cases out with
  | threw => rfl
  | resolved latest =>
    cases latest with
    | none => rfl
    | some v => by_cases hv : v ≠ "" <;> simp [hv]

theorem handleFetchResult_inProgress (st : FetchState) (item : QItem) (out : FetchOutcome)
    (now : Nat) : (handleFetchResult st item out now).inProgress =
      st.inProgress.filter (fun n => n ≠ item.packageName) := by
  unfold handleFetchResult
  cases out with
  | threw => rfl
  | resolved latest =>
    cases latest with
    | none => rfl
    | some v => by_cases hv : v ≠ "" <;> simp [hv]

theorem handleFetchResult_cache_of_failure (st : FetchState) (item : QItem)
    (out : FetchOutcome) (now : Nat) (h : out = .resolved none ∨ out = .threw) :
    (handleFetchResult st item out now).cache = st.cache := by
  rcases h with h | h <;> subst h <;> rfl

/-- C1 counterexample: a single addPackages call whose list holds the same
name twice checks every name against the queue as it was before the push, so
both copies pass the filter and the queue ends up with two items for the same
package. -/
theorem C1_counterexample :
    ¬ (((addPackages ⟨[], [], []⟩ ["a", "a"] none 0).queue.map
        (fun i => i.packageName)).Nodup) := by
  decide

/-- C1 (amended): for a name list without internal duplicates, addPackages
preserves the invariant that no two queue items share a package name and no
queued name is in flight; splicing a batch off the queue preserves it, keeps
the batch itself duplicate-free, and completing a fetch (which removes the
name from the in-flight set) preserves it as well.  Hence, away from
duplicate-bearing input lists, at most one fetch per package name is ever in
flight. -/
theorem C1_queue_dedup (st : FetchState) (names : List String) (fp : Option String)
    (now : Nat) (item : QItem) (out : FetchOutcome)
    (hq : QueueInv st) (hn : names.Nodup) (hnd : (mapKeys st.cache).Nodup) :
    QueueInv (addPackages st names fp now) ∧
    (QueueInv (takeBatch st).1 ∧
      (((takeBatch st).2.map (fun i => i.packageName)).Nodup)) ∧
    QueueInv (handleFetchResult st item out now) := by
  refine ⟨?_, ⟨?_, ?_⟩, ?_⟩
  · constructor
    · show ((st.queue ++ (filterNewPackages st.cache st.inProgress st.queue names now).1.map
          (fun n => ({ packageName := n, filePath := fp } : QItem))).map
            (fun i => i.packageName)).Nodup
      rw [List.map_append, List.map_map]
      have hmap : ((fun i => QItem.packageName i) ∘ fun n =>
          ({ packageName := n, filePath := fp } : QItem)) = id := rfl
      rw [hmap, List.map_id]
      rw [List.nodup_append]
      refine ⟨hq.1, (filterNewPackages_fst_sublist _ _ _ _ _).nodup hn, ?_⟩
      intro x hx hx2
      rcases (filterNewPackages_fst_mem st.cache st.inProgress st.queue names now x
        hnd).mp hx2 with ⟨_, _, _, h4⟩
      rcases List.mem_map.mp hx with ⟨i, hi, hix⟩
      exact h4 i hi hix
    · intro i hi
      rcases List.mem_append.mp hi with hi | hi
      · exact hq.2 i hi
      · rcases List.mem_map.mp hi with ⟨n, hn2, hni⟩
        rcases (filterNewPackages_fst_mem st.cache st.inProgress st.queue names now n
          hnd).mp hn2 with ⟨_, _, h3, _⟩
        rw [← hni]
        exact h3
  · constructor
    · exact hq.1.sublist ((List.drop_sublist BATCH_SIZE st.queue).map _)
    · intro i hi
      show i.packageName ∉ (st.queue.take BATCH_SIZE).foldl
        (fun s j => setAdd s j.packageName) st.inProgress
      rw [mem_foldl_setAdd]
      rintro (h | h)
      · exact hq.2 i ((List.drop_sublist BATCH_SIZE st.queue).subset hi) h
      · have hsplit : st.queue.map (fun i => i.packageName) =
            (st.queue.take BATCH_SIZE).map (fun i => i.packageName) ++
              (st.queue.drop BATCH_SIZE).map (fun i => i.packageName) := by
          rw [← List.map_append, List.take_append_drop]
        have hnodup := hq.1
        rw [hsplit, List.nodup_append] at hnodup
        exact hnodup.2.2 h (List.mem_map.mpr ⟨i, hi, rfl⟩)
  · exact hq.1.sublist ((List.take_sublist BATCH_SIZE st.queue).map _)
  · constructor
    · rw [handleFetchResult_queue]
      exact hq.1
    · intro i hi
      rw [handleFetchResult_queue] at hi
      rw [handleFetchResult_inProgress]
      intro hc
      exact hq.2 i hi (List.mem_of_mem_filter hc)

theorem C1_queue_dedup_witness :
    QueueInv (addPackages ⟨[], [], []⟩ ["a", "b"] none 0) := by
  exact (C1_queue_dedup ⟨[], [], []⟩ ["a", "b"] none 0 ⟨"x", none⟩ .threw
    (by decide) (by decide) (by decide)).1

/-- C7: a name passed to addPackages is enqueued exactly when the cache probe
misses (no truthy non-expired version), it is not in flight, and no item of
the queue at call time already carries it; the truthiness test agrees with
a non-expired cached version existing whenever no cached version is the
empty string (which the pipeline guarantees, both setters being guarded);
and when every requested name is a non-expired cache hit, addPackages leaves
the whole state unchanged — repetition issues no work and no queue item. -/
theorem C7_addPackages_skip (st : FetchState) (names : List String)
    (fp : Option String) (now : Nat) (n : String)
    (hnd : (mapKeys st.cache).Nodup) (hn : n ∈ names) :
    ((addPackages st names fp now).queue =
      st.queue ++ (filterNewPackages st.cache st.inProgress st.queue names now).1.map
        (fun m => { packageName := m, filePath := fp }) ∧
      (n ∈ (filterNewPackages st.cache st.inProgress st.queue names now).1 ↔
        ¬ (truthy (getCachedPackageLatestVersion st.cache n now).1 = true ∨
           n ∈ st.inProgress ∨ ∃ item ∈ st.queue, item.packageName = n))) ∧
    ((∀ pr ∈ st.cache, pr.2.version ≠ "") →
      (truthy (getCachedPackageLatestVersion st.cache n now).1 = true ↔
        ∃ v, (getCachedPackageLatestVersion st.cache n now).1 = some v)) ∧
    ((∀ m ∈ names, truthy (getCachedPackageLatestVersion st.cache m now).1 = true) →
      addPackages st names fp now = st) := by
  refine ⟨⟨rfl, ?_⟩, ?_, ?_⟩
  · rw [filterNewPackages_fst_mem st.cache st.inProgress st.queue names now n hnd]
    constructor
    · rintro ⟨_, h2, h3, h4⟩
      rintro (hc | hc | ⟨i, hi, hc⟩)
      · exact h2 hc
      · exact h3 hc
      · exact h4 i hi hc
    · intro h
      push_neg at h
      exact ⟨hn, by simpa using h.1, h.2.1, h.2.2⟩
  · intro hne
    constructor
    · intro ht
      cases hr : (getCachedPackageLatestVersion st.cache n now).1 with
      | none =>
        rw [hr] at ht
        exact absurd ht (by simp [truthy])
      | some v => exact ⟨v, rfl⟩
    · rintro ⟨v, hv⟩
      rcases ((getCachedPackageLatestVersion_fst st.cache n now) v).mp hv with
        ⟨e, he, hev, _⟩
      have hv2 : e.version ≠ "" := hne (n, e) (mem_of_mapFind_eq_some _ _ _ he)
      subst hev
      rw [hv]
      simp [truthy, hv2]
  · intro hall
    unfold addPackages
    rw [filterNewPackages_all_hit st.cache st.inProgress st.queue names now hall]
    simp

theorem C7_addPackages_skip_witness :
    addPackages ⟨[], [], [("a", ⟨"1.0.0", 0, []⟩)]⟩ ["a"] none 100 =
      ⟨[], [], [("a", ⟨"1.0.0", 0, []⟩)]⟩ := by
  exact (C7_addPackages_skip ⟨[], [], [("a", ⟨"1.0.0", 0, []⟩)]⟩ ["a"] none 100 "a"
    (by decide) (by decide)).2.2 (by decide)

/-- C8: the drain loop splices at most BATCH_SIZE items per batch off the
front, the batches concatenate back to the queue snapshot in FIFO order, the
inter-batch delay is awaited after every batch except the last, and a queue
of 12 items drains in exactly three batches of sizes 5, 5, 2 with delays
after the first two only. -/
theorem C8_drain_structure (q : List QItem) :
    (((drainBatches q).map (fun b => b.1)).flatten = q) ∧
    (∀ b ∈ drainBatches q, b.1.length ≤ BATCH_SIZE ∧ b.1 ≠ []) ∧
    (q ≠ [] → (drainBatches q).map (fun b => b.2) =
      List.replicate ((drainBatches q).length - 1) true ++ [false]) ∧
    (q.length = 12 →
      (drainBatches q).map (fun b => b.1.length) = [5, 5, 2] ∧
      (drainBatches q).map (fun b => b.2) = [true, true, false]) := by
  refine ⟨drainBatches_flatten q, drainBatches_batch_size q, drainBatches_flags q, ?_⟩
  intro h12
  have h1 : q ≠ [] := by
    intro hc
    rw [hc] at h12
    simp at h12
  have hd1 : (q.drop BATCH_SIZE).length = 7 := by
    simp only [List.length_drop, BATCH_SIZE]
    omega
  have h2 : q.drop BATCH_SIZE ≠ [] := by
    intro hc
    rw [hc] at hd1
    simp at hd1
  have hd2 : ((q.drop BATCH_SIZE).drop BATCH_SIZE).length = 2 := by
    simp only [List.length_drop, BATCH_SIZE]
    omega
  have h3 : (q.drop BATCH_SIZE).drop BATCH_SIZE ≠ [] := by
    intro hc
    rw [hc] at hd2
    simp at hd2
  have hd3 : (((q.drop BATCH_SIZE).drop BATCH_SIZE).drop BATCH_SIZE).length = 0 := by
    simp only [List.length_drop, BATCH_SIZE]
    omega
  have h4 : ((q.drop BATCH_SIZE).drop BATCH_SIZE).drop BATCH_SIZE = [] :=
    List.eq_nil_of_length_eq_zero hd3
  have f1 : decide (q.drop BATCH_SIZE ≠ []) = true := by
    rw [decide_eq_true_eq]
    exact h2
  have f2 : decide ((q.drop BATCH_SIZE).drop BATCH_SIZE ≠ []) = true := by
    rw [decide_eq_true_eq]
    exact h3
  rw [drainBatches_cons q h1, drainBatches_cons _ h2, drainBatches_cons _ h3, h4,
    drainBatches_nil]
  constructor
  · simp only [List.map_cons, List.map_nil, List.length_take, List.length_drop,
      BATCH_SIZE, h12]
    decide
  · simp only [List.map_cons, List.map_nil, f1, f2]
    simp

theorem C8_drain_structure_witness :
    (drainBatches [⟨"p01", none⟩, ⟨"p02", none⟩, ⟨"p03", none⟩, ⟨"p04", none⟩,
        ⟨"p05", none⟩, ⟨"p06", none⟩, ⟨"p07", none⟩, ⟨"p08", none⟩, ⟨"p09", none⟩,
        ⟨"p10", none⟩, ⟨"p11", none⟩, ⟨"p12", none⟩]).map (fun b => b.1.length) =
      [5, 5, 2] ∧
    (drainBatches [⟨"p01", none⟩, ⟨"p02", none⟩, ⟨"p03", none⟩, ⟨"p04", none⟩,
        ⟨"p05", none⟩, ⟨"p06", none⟩, ⟨"p07", none⟩, ⟨"p08", none⟩, ⟨"p09", none⟩,
        ⟨"p10", none⟩, ⟨"p11", none⟩, ⟨"p12", none⟩]).map (fun b => b.2) =
      [true, true, false] :=
  (C8_drain_structure _).2.2.2 (by decide)

/-- C10 (implicit): a batch item whose fetch threw or whose response had no
dist-tags latest leaves the package cache untouched, is removed from the
in-flight set, stays out of the queue, and is therefore re-enqueued by a
later addPackages call for it (when the cache still has no hit for it and
the queue holds no item for it). -/
theorem C10_failure_leaves_state (st : FetchState) (item : QItem) (out : FetchOutcome)
    (now now2 : Nat) (fp2 : Option String)
    (hfail : out = .resolved none ∨ out = .threw) :
    (handleFetchResult st item out now).cache = st.cache ∧
    (handleFetchResult st item out now).queue = st.queue ∧
    item.packageName ∉ (handleFetchResult st item out now).inProgress ∧
    (¬ truthy (getCachedPackageLatestVersion st.cache item.packageName now2).1 = true →
     (∀ it ∈ st.queue, it.packageName ≠ item.packageName) →
     (addPackages (handleFetchResult st item out now) [item.packageName] fp2 now2).queue =
       st.queue ++ [{ packageName := item.packageName, filePath := fp2 }]) := by
  have hcache := handleFetchResult_cache_of_failure st item out now hfail
  have hqueue := handleFetchResult_queue st item out now
  have hinp := handleFetchResult_inProgress st item out now
  have hnotin : item.packageName ∉ (handleFetchResult st item out now).inProgress := by
    rw [hinp]
    intro hc
    have hdec := (List.mem_filter.mp hc).2
    simp at hdec
  refine ⟨hcache, hqueue, hnotin, ?_⟩
  intro hmiss hqn
  unfold addPackages
  simp only [filterNewPackages]
  rw [if_pos ?keep]
  case keep =>
    refine ⟨?_, hnotin, ?_⟩
    · rw [hcache]
      exact hmiss
    · intro it hit
      rw [hqueue] at hit
      exact hqn it hit
  simp [hqueue]

theorem C10_failure_leaves_state_witness :
    (handleFetchResult ⟨[], ["a"], []⟩ ⟨"a", some "f.json"⟩ .threw 50).cache = [] ∧
      (addPackages (handleFetchResult ⟨[], ["a"], []⟩ ⟨"a", some "f.json"⟩ .threw 50)
        ["a"] (some "g.json") 60).queue = [⟨"a", some "g.json"⟩] := by
  have h := C10_failure_leaves_state ⟨[], ["a"], []⟩ ⟨"a", some "f.json"⟩ .threw 50 60
    (some "g.json") (Or.inr rfl)
  exact ⟨h.1, by simpa using h.2.2.2 (by decide) (by decide)⟩

theorem suppressed_true_of (st : ProviderState) (p : String) (now : Nat)
    (fi : FailureInfo) (hfi : mapFind st.failedPackages p = some fi)
    (hA : fi.attempts ≥ MAX_ATTEMPTS) (hwin : now - fi.lastAttempt < RETRY_DELAY) :
    suppressed st p now = true := by
  unfold suppressed
  rw [hfi]
  exact decide_eq_true ⟨hA, hwin⟩

theorem suppressed_false_of (st : ProviderState) (p : String) (now : Nat)
    (fi : FailureInfo) (hfi : mapFind st.failedPackages p = some fi)
    (hwin : now - fi.lastAttempt ≥ RETRY_DELAY) :
    suppressed st p now = false := by
  unfold suppressed
  rw [hfi]
  apply decide_eq_false
  rintro ⟨_, h2⟩
  omega

theorem handlePackageFailure_status_ne_success (st : ProviderState) (p : String)
    (o : NetOutcome) (now : Nat) :
    (handlePackageFailure st p o now).2.1 ≠ PkgStatus.success := by
  unfold handlePackageFailure
  by_cases h1 : msgHasNotFound o = true
  · simp [h1]
  · simp only [Bool.not_eq_true] at h1
    rw [h1]
    by_cases h2 : msgHasTimeout o = true
    · simp [h2]
    · simp only [Bool.not_eq_true] at h2
      rw [h2]
      by_cases h3 : msgHasRateLimited o = true
      · simp [h3]
      · simp only [Bool.not_eq_true] at h3
        rw [h3]
        simp

theorem fetchOnePackageNet_success_tracker (st : ProviderState) (p : String)
    (now : Nat) (net : NetOutcome)
    (h : (fetchOnePackageNet st p now net).status = .success) :
    (fetchOnePackageNet st p now net).state.failedPackages =
      mapErase st.failedPackages p := by
  unfold fetchOnePackageNet at h ⊢
  cases net with
  | ok latest =>
    cases latest with
    | none => exact absurd h (handlePackageFailure_status_ne_success st p (.ok none) now)
    | some v =>
      by_cases hv : v ≠ ""
      · simp [hv]
      · simp only [if_neg hv] at h ⊢
        exact absurd h (handlePackageFailure_status_ne_success st p (.ok (some v)) now)
  | notFound => exact absurd h (handlePackageFailure_status_ne_success st p .notFound now)
  | rateLimited => exact absurd h (handlePackageFailure_status_ne_success st p .rateLimited now)
  | httpError s => exact absurd h (handlePackageFailure_status_ne_success st p (.httpError s) now)
  | parseError => exact absurd h (handlePackageFailure_status_ne_success st p .parseError now)
  | timedOut => exact absurd h (handlePackageFailure_status_ne_success st p .timedOut now)
  | requestTimeout => exact absurd h (handlePackageFailure_status_ne_success st p .requestTimeout now)
  | responseError => exact absurd h (handlePackageFailure_status_ne_success st p .responseError now)
  | networkError => exact absurd h (handlePackageFailure_status_ne_success st p .networkError now)

/-- When there is no suppression and no fresh provider-cache hit, the step is
exactly the network path. -/
theorem fetchOnePackage_net_of_miss (st : ProviderState) (p : String) (now : Nat)
    (net : NetOutcome) (hsup : suppressed st p now = false)
    (hfresh : pvCacheFresh st p now = false) :
    fetchOnePackage st p now net = fetchOnePackageNet st p now net := by
  unfold fetchOnePackage
  rw [hsup]
  simp only [Bool.false_eq_true, if_false]
  cases hf : mapFind st.packageCache p with
  | none => rfl
  | some e =>
    have hfr : decide (now - e.timestamp < CACHE_DURATION) = false := by
      unfold pvCacheFresh at hfresh
      rw [hf] at hfresh
      exact hfresh
    simp only [if_neg (of_decide_eq_false hfr)]

/-- C4 counterexample: the provider has no per-package in-flight dedup, so
overlapping fetches for one package can interleave: a success freshens
packageCache (and clears the tracker), after which three later failing
completions push attempts back to 3.  In the resulting state --- tracker
attempts 3 stamped at 60000, cache entry freshened at 50000 --- a request at
100000 is past the 30s backoff window, but the provider-cache probe hits the
fresh entry and the request performs zero network calls, not the one call the
claim demands. -/
theorem C4_counterexample :
    (3 : Nat) ≥ MAX_ATTEMPTS ∧
    (100000 : Nat) - 60000 ≥ RETRY_DELAY ∧
    mapFind ([("left-pad", (⟨3, 60000⟩ : FailureInfo))] : SMap FailureInfo) "left-pad" =
      some ⟨3, 60000⟩ ∧
    (fetchOnePackage ⟨[("left-pad", ⟨"1.3.0", 50000⟩)], [("left-pad", ⟨3, 60000⟩)]⟩
      "left-pad" 100000 .networkError).netCalls = 0 := by
  decide

/-- C4 (amended): for a package whose tracker records attempts at or above
MAX_ATTEMPTS in a key-well-formed provider state: a request inside the
backoff window issues no network call, reports the max-retries marker and
leaves the state unchanged; a request at or after the window boundary issues
exactly one network call provided the provider cache holds no fresh entry
for the package (overlapping same-package fetches can freshen the cache
while later failures raise the counter, and the request is then served from
the cache with zero calls); and any request that ends in success deletes the
tracker entry for the package. -/
theorem C4_backoff (st : ProviderState) (p : String) (now : Nat) (net : NetOutcome)
    (fi : FailureInfo) (hwf : providerWF st)
    (hfi : mapFind st.failedPackages p = some fi) (hA : fi.attempts ≥ MAX_ATTEMPTS) :
    (now - fi.lastAttempt < RETRY_DELAY →
      fetchOnePackage st p now net =
        { state := st, netCalls := 0, status := .error,
          latestVersion := some "max-retries" }) ∧
    (now - fi.lastAttempt ≥ RETRY_DELAY → pvCacheFresh st p now = false →
      (fetchOnePackage st p now net).netCalls = 1) ∧
    ((fetchOnePackage st p now net).status = .success →
      mapFind (fetchOnePackage st p now net).state.failedPackages p = none) := by
  refine ⟨?_, ?_, ?_⟩
  · intro h1
    have hsup := suppressed_true_of st p now fi hfi hA h1
    unfold fetchOnePackage
    simp only [hsup, if_true]
  · intro h2 hfresh
    have hsup := suppressed_false_of st p now fi hfi h2
    rw [fetchOnePackage_net_of_miss st p now net hsup hfresh]
    exact fetchOnePackageNet_netCalls st p now net
  · by_cases hsup : suppressed st p now = true
    · unfold fetchOnePackage
      simp only [hsup, if_true]
      intro h
      exact absurd h (by simp)
    · simp only [Bool.not_eq_true] at hsup
      unfold fetchOnePackage
      rw [hsup]
      simp only [Bool.false_eq_true, if_false]
      cases hf : mapFind st.packageCache p with
      | none =>
        intro h
        rw [fetchOnePackageNet_success_tracker st p now net h]
        exact mapFind_mapErase_self _ p hwf.2
      | some e =>
        by_cases hfresh : now - e.timestamp < CACHE_DURATION
        · simp only [if_pos hfresh]
          intro _
          exact mapFind_mapErase_self _ p hwf.2
        · simp only [if_neg hfresh]
          intro h
          rw [fetchOnePackageNet_success_tracker st p now net h]
          exact mapFind_mapErase_self _ p hwf.2

theorem C4_backoff_witness :
    (fetchOnePackage ⟨[], [("p", ⟨3, 1000⟩)]⟩ "p" 40000 .networkError).netCalls = 1 ∧
      fetchOnePackage ⟨[], [("p", ⟨3, 1000⟩)]⟩ "p" 20000 .networkError =
        { state := ⟨[], [("p", ⟨3, 1000⟩)]⟩, netCalls := 0, status := .error,
          latestVersion := some "max-retries" } := by
  constructor
  · exact (C4_backoff ⟨[], [("p", ⟨3, 1000⟩)]⟩ "p" 40000 .networkError ⟨3, 1000⟩
      (by decide) (by decide) (by decide)).2.1 (by decide) (by decide)
  · exact (C4_backoff ⟨[], [("p", ⟨3, 1000⟩)]⟩ "p" 20000 .networkError ⟨3, 1000⟩
      (by decide) (by decide) (by decide)).1 (by decide)

/-- C5: when a request reaches the network (no suppression, no fresh cache
hit), a 404 outcome makes the status not-found with the failure tracker and
the provider cache both untouched, while every other failing outcome leaves a
tracker entry whose attempts counter is the previous value plus one and whose
lastAttemptTime is now. -/
theorem C5_notFound_terminal (st : ProviderState) (p : String) (now : Nat)
    (hsup : suppressed st p now = false) (hfresh : pvCacheFresh st p now = false) :
    ((fetchOnePackage st p now .notFound).status = .notFound ∧
     (fetchOnePackage st p now .notFound).latestVersion = some "not-found" ∧
     (fetchOnePackage st p now .notFound).state.failedPackages = st.failedPackages ∧
     (fetchOnePackage st p now .notFound).state.packageCache = st.packageCache) ∧
    (∀ net : NetOutcome, (∀ v, net = .ok (some v) → v = "") → net ≠ .notFound →
      mapFind (fetchOnePackage st p now net).state.failedPackages p =
        some ⟨((mapFind st.failedPackages p).getD ⟨0, 0⟩).attempts + 1, now⟩) := by
  constructor
  · rw [fetchOnePackage_net_of_miss st p now .notFound hsup hfresh]
    exact ⟨rfl, rfl, rfl, rfl⟩
  · intro net hok hnf
    rw [fetchOnePackage_net_of_miss st p now net hsup hfresh]
    have hfail : ∀ o : NetOutcome, msgHasNotFound o = false →
        mapFind (handlePackageFailure st p o now).1.failedPackages p =
          some ⟨((mapFind st.failedPackages p).getD ⟨0, 0⟩).attempts + 1, now⟩ := by
      intro o ho
      rw [handlePackageFailure_other_state st p o now ho]
      exact mapFind_mapSet_self _ _ _
    unfold fetchOnePackageNet
    cases net with
    | ok latest =>
      cases latest with
      | none => exact hfail (.ok none) rfl
      | some v =>
        have hv : v = "" := hok v rfl
        subst hv
        simp only [ne_eq, not_true_eq_false, if_false]
        exact hfail (.ok (some "")) rfl
    | notFound => exact absurd rfl hnf
    | rateLimited => exact hfail .rateLimited rfl
    | httpError s => exact hfail (.httpError s) rfl
    | parseError => exact hfail .parseError rfl
    | timedOut => exact hfail .timedOut rfl
    | requestTimeout => exact hfail .requestTimeout rfl
    | responseError => exact hfail .responseError rfl
    | networkError => exact hfail .networkError rfl

theorem C5_notFound_terminal_witness :
    (fetchOnePackage ⟨[], []⟩ "q" 500 .notFound).status = .notFound ∧
      (fetchOnePackage ⟨[], []⟩ "q" 500 .notFound).state.failedPackages = [] ∧
      mapFind (fetchOnePackage ⟨[], []⟩ "q" 500 .timedOut).state.failedPackages "q" =
        some ⟨1, 500⟩ := by
  have h := C5_notFound_terminal ⟨[], []⟩ "q" 500 rfl rfl
  refine ⟨h.1.1, h.1.2.2.1, ?_⟩
  have h2 := h.2 .timedOut (by intro v hv; exact absurd hv (by simp)) (by simp)
  exact h2

end PatchPulse
